import Mathlib

/-!
Verification development for the product price service.

The embedding models the Python sources:
  * `schema.py`          — the four record dataclasses,
  * `storage_strategy.py` — `StorageStrategy.update_price` and the
    `ManualTestingStorageStrategy` in-memory tables,
  * `cache_strategy.py`  — `InMemoryCacheStrategy`,
  * `views.py`           — the write path of the `receive` route,
  * `app.py`             — the legacy prototype `receive` handler.

Python dicts are modelled as insertion-ordered association lists
(`List (κ × α)`): assignment `d[k] = v` replaces the entry in place when the
key is present and appends otherwise, which is exactly how CPython dicts
iterate.  Python floats are modelled as rationals (only comparisons occur),
datetimes as naturals.  On the windowed write path the source calls
`requests.post(json.dumps(history_record), timeout=5 * 60.0)`; `json.dumps`
of the `HistoryRecord` dataclass raises `TypeError` deterministically, before
any network traffic, so the windowed path always raises right after the
history append.  A raised exception is an `Except.error` carrying the state
left behind.
-/

namespace PriceService

/-- Stand-in for `datetime`; nothing in the core reads its value. -/
abbrev DateTime := Nat

/-- `schema.HistoryRecord`. -/
structure HistoryRecord where
  id : Nat
  sku : String
  retailer : String
  price : Rat
  timestamp : DateTime
  fromdate : Option DateTime
  todate : Option DateTime
  url : Option String
deriving DecidableEq

/-- `schema.LatestPriceRecord`. -/
structure LatestPriceRecord where
  sku : String
  retailer : String
  price : Rat
  fromdate : Option DateTime
  todate : Option DateTime
  url : Option String
deriving DecidableEq

/-- `schema.LowestPriceRecord`. -/
structure LowestPriceRecord where
  sku : String
  retailer : String
  price : Rat
  fromdate : Option DateTime
  todate : Option DateTime
  url : Option String
deriving DecidableEq

/-- `schema.APIRecord`. -/
structure APIRecord where
  sku : String
  retailer : String
  price : Rat
  fromdate : Option DateTime
  todate : Option DateTime
  url : Option String
deriving DecidableEq

/-- `d[k]` lookup returning `none` when the key is missing (`dict.get`). -/
def dictGet? {κ α : Type} [DecidableEq κ] : List (κ × α) → κ → Option α
  | [], _ => none
  | p :: ps, k => if p.1 = k then some p.2 else dictGet? ps k

/-- `k in d`. -/
def dictHasKey {κ α : Type} [DecidableEq κ] : List (κ × α) → κ → Bool
  | [], _ => false
  | p :: ps, k => if p.1 = k then true else dictHasKey ps k

/-- `d[k] = v`: replace in place when present, append otherwise. -/
def dictSet {κ α : Type} [DecidableEq κ] : List (κ × α) → κ → α → List (κ × α)
  | [], k, v => [(k, v)]
  | p :: ps, k, v => if p.1 = k then (k, v) :: ps else p :: dictSet ps k v

/-- `del d[k]` (removes the entry with key `k`, first occurrence). -/
def dictDel {κ α : Type} [DecidableEq κ] : List (κ × α) → κ → List (κ × α)
  | [], _ => []
  | p :: ps, k => if p.1 = k then ps else p :: dictDel ps k

/-- The keys of an association list, in order. -/
def keysOf {κ α : Type} (d : List (κ × α)) : List κ :=
  d.map (fun p => p.1)

/-- `LatestPriceRecord(**asdict(api_record))`. -/
def latestOfAPI (r : APIRecord) : LatestPriceRecord :=
  ⟨r.sku, r.retailer, r.price, r.fromdate, r.todate, r.url⟩

/-- `LowestPriceRecord(**asdict(api_record))`. -/
def lowestOfAPI (r : APIRecord) : LowestPriceRecord :=
  ⟨r.sku, r.retailer, r.price, r.fromdate, r.todate, r.url⟩

/-- `LowestPriceRecord(**asdict(latest_price_point))`. -/
def lowestOfLatest (m : LatestPriceRecord) : LowestPriceRecord :=
  ⟨m.sku, m.retailer, m.price, m.fromdate, m.todate, m.url⟩

/-- `APIRecord(**asdict(lowest_entry))`. -/
def apiOfLowest (e : LowestPriceRecord) : APIRecord :=
  ⟨e.sku, e.retailer, e.price, e.fromdate, e.todate, e.url⟩

/-- `APIRecord(**asdict(latest_entry))`. -/
def apiOfLatest (e : LatestPriceRecord) : APIRecord :=
  ⟨e.sku, e.retailer, e.price, e.fromdate, e.todate, e.url⟩

/-- An observation carries an effective window iff `fromdate` or `todate`
is set (`history_record.fromdate is not None or ... todate is not None`). -/
def isWindowed (r : APIRecord) : Bool :=
  r.fromdate.isSome || r.todate.isSome

/-- The in-memory tables of `ManualTestingStorageStrategy`. -/
structure Store where
  history_table : List (Nat × HistoryRecord)
  next_history_table_id : Nat
  latest_price_table : List ((String × String) × LatestPriceRecord)
  lowest_price_table : List (String × LowestPriceRecord)
deriving DecidableEq

/-- The fresh state built by `ManualTestingStorageStrategy.__init__`. -/
def Store.empty : Store := ⟨[], 0, [], []⟩

/-- The history entry written by
`ManualTestingStorageStrategy._update_history_table` (the subclass replaces
the placeholder id `-1` by `next_history_table_id`). -/
def mkHistoryRecord (now : DateTime) (s : Store) (r : APIRecord) : HistoryRecord :=
  ⟨s.next_history_table_id, r.sku, r.retailer, r.price, now, r.fromdate, r.todate, r.url⟩

/-- `StorageStrategy.__update_history_table` up to (not including) the
`requests.post` call: insert the record under its fresh id and bump the
counter. -/
def historyStep (now : DateTime) (s : Store) (r : APIRecord) : Store :=
  Store.mk (dictSet s.history_table s.next_history_table_id (mkHistoryRecord now s r))
    (s.next_history_table_id + 1) s.latest_price_table s.lowest_price_table

/-- `ManualTestingStorageStrategy._update_latest_table`: the upsert itself. -/
def writeLatest (s : Store) (e : LatestPriceRecord) : Store :=
  Store.mk s.history_table s.next_history_table_id
    (dictSet s.latest_price_table (e.sku, e.retailer) e) s.lowest_price_table

/-- `_create_lowest_price_entry` and `_update_lowest_price_entry` have the
same body: key the entry by its own `sku` field. -/
def writeLowest (s : Store) (e : LowestPriceRecord) : Store :=
  Store.mk s.history_table s.next_history_table_id s.latest_price_table
    (dictSet s.lowest_price_table e.sku e)

/-- `StorageStrategy.__update_latest_table`: upsert, skipped for windowed
observations. -/
def latestStep (s : Store) (r : APIRecord) : Store :=
  if isWindowed r then s
  else writeLatest s (latestOfAPI r)

/-- `[value for key, value in latest_price_table.items() if key[0] == sku]`
as used by `ManualTestingStorageStrategy._query_lowest_price_point`. -/
def scanLatest (t : List ((String × String) × LatestPriceRecord)) (sku : String) :
    List LatestPriceRecord :=
  (t.filter (fun p => decide (p.1.1 = sku))).map (fun p => p.2)

/-- Python's `min(price_points, key=lambda p: p.price)` keeps the first
element and replaces it only on a strictly smaller key. -/
def minFold (a : LatestPriceRecord) (l : List LatestPriceRecord) : LatestPriceRecord :=
  l.foldl (fun best p => if p.price < best.price then p else best) a

/-- `min(...)` raises `ValueError` on an empty sequence; modelled as `none`. -/
def pyMin? : List LatestPriceRecord → Option LatestPriceRecord
  | [] => none
  | x :: xs => some (minFold x xs)

/-- `ManualTestingStorageStrategy._query_lowest_price_point`. -/
def queryLowestPricePoint (s : Store) (sku : String) : Option LatestPriceRecord :=
  pyMin? (scanLatest s.latest_price_table sku)

/-- Which branch of `StorageStrategy.__update_lowest_table` ran. -/
inductive LowBranch
  /-- No entry yet for the sku: `_create_lowest_price_entry` (branch 2). -/
  | create
  /-- `price <= current_entry.price`: index replaced (branch 3). -/
  | takeLow
  /-- `price > current_entry.price and current_entry.retailer == retailer`:
  rescan of the latest table (branch 4). -/
  | rescan
  /-- Price increase from a non-holding seller: no index write (branch 5). -/
  | noop
  /-- Windowed observation: the whole reconcile step is skipped. -/
  | skipWindowed
deriving DecidableEq

/-- `StorageStrategy.__update_lowest_table`.  The `Except.error` case is the
`ValueError` that `min` would raise on an empty scan. -/
def lowestStep (s : Store) (r : APIRecord) : Except Store (Store × LowBranch) :=
  if isWindowed r then Except.ok (s, LowBranch.skipWindowed)
  else
    match dictGet? s.lowest_price_table r.sku with
    | none => Except.ok (writeLowest s (lowestOfAPI r), LowBranch.create)
    | some cur =>
        if r.price ≤ cur.price then
          Except.ok (writeLowest s (lowestOfAPI r), LowBranch.takeLow)
        else if r.price > cur.price ∧ cur.retailer = r.retailer then
          match queryLowestPricePoint s r.sku with
          | none => Except.error s
          | some m => Except.ok (writeLowest s (lowestOfLatest m), LowBranch.rescan)
        else Except.ok (s, LowBranch.noop)

/-- Result of a successful `update_price`. -/
structure UpdateOut where
  store : Store
  branch : LowBranch
deriving DecidableEq

/-- `StorageStrategy.update_price`: history append, then for a windowed
observation the `requests.post(json.dumps(history_record), ...)` line, whose
`json.dumps` raises `TypeError` on the dataclass deterministically (before
any network call is made); then the latest-table upsert and the lowest-table
reconcile.  An error carries the state visible after the raise. -/
def update_price (now : DateTime) (s : Store) (r : APIRecord) :
    Except Store UpdateOut :=
  let s1 := historyStep now s r
  if isWindowed r then Except.error s1
  else
    match lowestStep (latestStep s1 r) r with
    | Except.error e => Except.error e
    | Except.ok (s3, b) => Except.ok ⟨s3, b⟩

/-- `ManualTestingStorageStrategy.lowest_price`. -/
def lowest_price (s : Store) (sku : String) : Option APIRecord :=
  match dictGet? s.lowest_price_table sku with
  | some e => some (apiOfLowest e)
  | none => none

/-- `ManualTestingStorageStrategy.latest_for_retailer`.  The subscript
`self.latest_price_table[sku, retailer]` raises `KeyError` when the key is
missing (modelled as `Except.error ()`); the `if not record` guard in the
source is dead because a dataclass instance is always truthy. -/
def latest_for_retailer (s : Store) (sku retailer : String) :
    Except Unit (Option APIRecord) :=
  match dictGet? s.latest_price_table (sku, retailer) with
  | none => Except.error ()
  | some rec => Except.ok (some (apiOfLatest rec))

/-- Run a sequence of `record_observation` calls, collecting the reconcile
branch taken by each write. -/
def run : List APIRecord → Store → Except Store (Store × List LowBranch)
  | [], s => Except.ok (s, [])
  | r :: rs, s =>
      match update_price 0 s r with
      | Except.error e => Except.error e
      | Except.ok out =>
          match run rs out.store with
          | Except.error e => Except.error e
          | Except.ok (s', bs) => Except.ok (s', out.branch :: bs)

/-- The store a run ends in (error payload if it raised). -/
def runState (rs : List APIRecord) : Store :=
  match run rs Store.empty with
  | Except.ok (s, _) => s
  | Except.error e => e

/-- The branches a run took (empty if it raised). -/
def runBranches (rs : List APIRecord) : List LowBranch :=
  match run rs Store.empty with
  | Except.ok (_, bs) => bs
  | Except.error _ => []

/-- A plain (non-windowed) observation. -/
def mkObs (sku retailer : String) (price : Rat) : APIRecord :=
  ⟨sku, retailer, price, none, none, none⟩

/-- The dictionary held by `InMemoryCacheStrategy.cache`. -/
abbrev Cache := List (String × APIRecord)

/-- `InMemoryCacheStrategy.invalidate`: `if sku in cache: del cache[sku]`. -/
def cache_invalidate (c : Cache) (sku : String) : Cache :=
  if dictHasKey c sku then dictDel c sku else c

/-- `InMemoryCacheStrategy.update`. -/
def cache_update (c : Cache) (sku : String) (r : APIRecord) : Cache :=
  dictSet c sku r

/-- `InMemoryCacheStrategy.retrieve`. -/
def cache_retrieve (c : Cache) (sku : String) : Option APIRecord :=
  dictGet? c sku

/-- Cache calls a client can make between reads. -/
inductive CacheOp
  | inval (sku : String)
  | upd (sku : String) (r : APIRecord)
deriving DecidableEq

/-- Apply one cache call. -/
def applyCacheOp (c : Cache) : CacheOp → Cache
  | CacheOp.inval sku => cache_invalidate c sku
  | CacheOp.upd sku r => cache_update c sku r

/-- Whether a cache call is an `update` for the given sku. -/
def isUpdFor (sku : String) : CacheOp → Bool
  | CacheOp.upd sk _ => sk == sku
  | CacheOp.inval _ => false

/-- Storage plus cache, as wired by `views.create_app`. -/
structure Sys where
  store : Store
  cache : Cache
deriving DecidableEq

/-- The calls the `receive` write path makes, in order
(`start_transaction` and `end_transaction` are no-ops in
`ManualTestingStorageStrategy`). -/
inductive WEvent
  | beginTx
  | commitTx
  | invalidateEv (sku : String)
deriving DecidableEq

/-- The write path of the `receive` route (`views.py` lines 69-77):
`start_transaction(); update_price(record); end_transaction();
cache.invalidate(record.sku)`.  The returned trace lists those calls; a
raise inside `update_price` propagates before `invalidate` runs. -/
def receive (now : DateTime) (sys : Sys) (r : APIRecord) :
    Except Sys (Sys × List WEvent) :=
  match update_price now sys.store r with
  | Except.error s' => Except.error ⟨s', sys.cache⟩
  | Except.ok out =>
      Except.ok (⟨out.store, cache_invalidate sys.cache r.sku⟩,
        [WEvent.beginTx, WEvent.commitTx, WEvent.invalidateEv r.sku])

/-- The legacy prototype handler `app.py receive` (lines 66-84).  It has no
windowed fields at all, and its lowest-table update uses the strict
comparison `price < current_entry.price`; on the rescan path it keys the
write by the local `sku` variable. -/
def appReceive (now : DateTime) (s : Store) (sku retailer : String) (price : Rat)
    (url : Option String) : Except Store Store :=
  let hrec : HistoryRecord :=
    ⟨s.next_history_table_id, sku, retailer, price, now, none, none, url⟩
  let s1 : Store :=
    Store.mk (dictSet s.history_table s.next_history_table_id hrec)
      (s.next_history_table_id + 1) s.latest_price_table s.lowest_price_table
  let s2 : Store := writeLatest s1 ⟨sku, retailer, price, none, none, url⟩
  match dictGet? s2.lowest_price_table sku with
  | none =>
      Except.ok (Store.mk s2.history_table s2.next_history_table_id s2.latest_price_table
        (dictSet s2.lowest_price_table sku ⟨sku, retailer, price, none, none, url⟩))
  | some cur =>
      if price < cur.price then
        Except.ok (Store.mk s2.history_table s2.next_history_table_id s2.latest_price_table
          (dictSet s2.lowest_price_table sku ⟨sku, retailer, price, none, none, url⟩))
      else if price > cur.price ∧ cur.retailer = retailer then
        match pyMin? (scanLatest s2.latest_price_table sku) with
        | none => Except.error s2
        | some m =>
            Except.ok (Store.mk s2.history_table s2.next_history_table_id
              s2.latest_price_table
              (dictSet s2.lowest_price_table sku (lowestOfLatest m)))
      else Except.ok s2

/-- Scenario of §8 "monotonic rescan": A=10, B=12, then A=15. -/
def scenRescan : List APIRecord :=
  [mkObs "p" "a" 10, mkObs "p" "b" 12, mkObs "p" "a" 15]

/-- The same scenario followed by B=20. -/
def scenRescan4 : List APIRecord :=
  scenRescan ++ [mkObs "p" "b" 20]

/-- Scenario of §8 "concrete scenario", first list. -/
def scenDrop : List APIRecord :=
  [mkObs "p" "a" 10, mkObs "p" "b" 8, mkObs "p" "a" 5]

/-- Scenario of §8 "concrete scenario", second list. -/
def scenRaise : List APIRecord :=
  [mkObs "p" "a" 10, mkObs "p" "b" 8, mkObs "p" "a" 12]

/-- A windowed observation used as concrete input. -/
def wObs : APIRecord :=
  ⟨"p", "a", 10, some 5, none, none⟩

/-- The invariant tying the lowest-price table to the latest-price table,
together with the well-formedness facts the tables enjoy by construction:
entries carry their own key fields, keys are unique, a sku absent from the
lowest table has no latest entries, the recorded lowest price is a lower
bound on the sku's latest prices, and the recorded holder's latest entry
realises exactly that price. -/
structure TInv (L : List ((String × String) × LatestPriceRecord))
    (W : List (String × LowestPriceRecord)) : Prop where
  latest_wf : ∀ p ∈ L, p.2.sku = p.1.1 ∧ p.2.retailer = p.1.2
  latest_nodup : (keysOf L).Nodup
  absent_scan : ∀ sk v, dictGet? W sk = none → v ∉ scanLatest L sk
  low_le : ∀ sk e v, dictGet? W sk = some e → v ∈ scanLatest L sk → e.price ≤ v.price
  low_wit : ∀ sk e, dictGet? W sk = some e →
    ∃ v, dictGet? L (sk, e.retailer) = some v ∧ v.price = e.price

/-- The invariant read on a store. -/
def StoreInv (s : Store) : Prop :=
  TInv s.latest_price_table s.lowest_price_table

/- ---------------------------------------------------------------------
Dictionary lemmas.
--------------------------------------------------------------------- -/

section DictLemmas

variable {κ α : Type}

@[simp]
theorem keysOf_nil : keysOf ([] : List (κ × α)) = [] := rfl

@[simp]
theorem keysOf_cons (p : κ × α) (ps : List (κ × α)) :
    keysOf (p :: ps) = p.1 :: keysOf ps := rfl

theorem mem_keysOf_of_mem {d : List (κ × α)} {p : κ × α} (h : p ∈ d) :
    p.1 ∈ keysOf d :=
  List.mem_map_of_mem (fun x => x.1) h

variable [DecidableEq κ]

@[simp]
theorem dictGet?_nil (k : κ) : dictGet? ([] : List (κ × α)) k = none := rfl

theorem dictGet?_set_self (d : List (κ × α)) (k : κ) (v : α) :
    dictGet? (dictSet d k v) k = some v := by
  induction d with
  | nil => simp [dictSet, dictGet?]
  | cons p ps ih =>
      by_cases h : p.1 = k
      · simp [dictSet, h, dictGet?]
      · simp [dictSet, h, dictGet?, ih]

theorem dictGet?_set_ne (d : List (κ × α)) (k k' : κ) (v : α) (h : k' ≠ k) :
    dictGet? (dictSet d k v) k' = dictGet? d k' := by
  induction d with
  | nil => simp [dictSet, dictGet?, Ne.symm h]
  | cons p ps ih =>
      by_cases hp : p.1 = k
      · have hpk' : ¬ p.1 = k' := by rw [hp]; exact Ne.symm h
        simp [dictSet, hp, dictGet?, Ne.symm h, hpk']
      · by_cases hp' : p.1 = k'
        · simp [dictSet, hp, dictGet?, hp', h, Ne.symm h]
        · simp [dictSet, hp, dictGet?, hp', ih]

theorem dictGet?_eq_none_iff (d : List (κ × α)) (k : κ) :
    dictGet? d k = none ↔ ∀ p ∈ d, p.1 ≠ k := by
  induction d with
  | nil => simp
  | cons p ps ih =>
      by_cases h : p.1 = k
      · simp [dictGet?, h]
      · simp [dictGet?, h, ih]

theorem dictGet?_eq_some_mem (d : List (κ × α)) (k : κ) (v : α)
    (h : dictGet? d k = some v) : ∃ p, p ∈ d ∧ p.1 = k ∧ p.2 = v := by
  induction d with
  | nil => simp [dictGet?] at h
  | cons p ps ih =>
      by_cases hp : p.1 = k
      · refine ⟨p, List.mem_cons_self _ _, hp, ?_⟩
        simp [dictGet?, hp] at h
        exact h
      · simp only [dictGet?, hp, if_false] at h
        obtain ⟨q, hq, hk, hv⟩ := ih h
        exact ⟨q, List.mem_cons_of_mem _ hq, hk, hv⟩

theorem dictGet?_of_mem_nodup {d : List (κ × α)} (hnd : (keysOf d).Nodup)
    {p : κ × α} (hp : p ∈ d) : dictGet? d p.1 = some p.2 := by
  induction d with
  | nil => simp at hp
  | cons q ps ih =>
      rw [keysOf_cons, List.nodup_cons] at hnd
      rcases List.mem_cons.mp hp with h | h
      · subst h
        simp [dictGet?]
      · have hne : ¬ q.1 = p.1 := by
          intro hh
          exact hnd.1 (hh ▸ mem_keysOf_of_mem h)
        simp only [dictGet?, hne, if_false]
        exact ih hnd.2 h

theorem mem_keysOf_dictSet {d : List (κ × α)} {k k' : κ} {v : α}
    (h : k' ∈ keysOf (dictSet d k v)) : k' ∈ keysOf d ∨ k' = k := by
  induction d with
  | nil => simpa [dictSet] using h
  | cons p ps ih =>
      by_cases hp : p.1 = k
      · simp only [dictSet, hp, if_true, keysOf_cons] at h
        rcases List.mem_cons.mp h with h | h
        · exact Or.inr h
        · exact Or.inl (List.mem_cons_of_mem _ h)
      · simp only [dictSet, hp, if_false, keysOf_cons] at h
        rcases List.mem_cons.mp h with h | h
        · exact Or.inl (h ▸ List.mem_cons_self _ _)
        · rcases ih h with h' | h'
          · exact Or.inl (List.mem_cons_of_mem _ h')
          · exact Or.inr h'

theorem keysOf_dictSet_nodup {d : List (κ × α)} (hnd : (keysOf d).Nodup)
    (k : κ) (v : α) : (keysOf (dictSet d k v)).Nodup := by
  induction d with
  | nil => simp [dictSet]
  | cons p ps ih =>
      rw [keysOf_cons, List.nodup_cons] at hnd
      by_cases hp : p.1 = k
      · subst hp
        simp only [dictSet, if_true, keysOf_cons, List.nodup_cons]
        exact ⟨hnd.1, hnd.2⟩
      · simp only [dictSet, hp, if_false, keysOf_cons, List.nodup_cons]
        refine ⟨?_, ih hnd.2⟩
        intro hmem
        rcases mem_keysOf_dictSet hmem with h | h
        · exact hnd.1 h
        · exact hp h

theorem mem_dictSet_nodup {d : List (κ × α)} (hnd : (keysOf d).Nodup)
    {k : κ} {v : α} {p : κ × α} :
    p ∈ dictSet d k v ↔ p = (k, v) ∨ (p ∈ d ∧ p.1 ≠ k) := by
  induction d with
  | nil => simp [dictSet]
  | cons q ps ih =>
      rw [keysOf_cons, List.nodup_cons] at hnd
      by_cases hq : q.1 = k
      · subst hq
        simp only [dictSet, if_true]
        constructor
        · intro hm
          rcases List.mem_cons.mp hm with h | h
          · exact Or.inl h
          · refine Or.inr ⟨List.mem_cons_of_mem _ h, ?_⟩
            intro hh
            exact hnd.1 (hh ▸ mem_keysOf_of_mem h)
        · intro hm
          rcases hm with h | ⟨hmem, hne⟩
          · exact h ▸ List.mem_cons_self _ _
          · rcases List.mem_cons.mp hmem with h | h
            · exact absurd (congrArg Prod.fst h) hne
            · exact List.mem_cons_of_mem _ h
      · simp only [dictSet, hq, if_false]
        constructor
        · intro hm
          rcases List.mem_cons.mp hm with h | h
          · exact Or.inr ⟨h ▸ List.mem_cons_self _ _, h ▸ hq⟩
          · rcases (ih hnd.2).mp h with h' | ⟨hmem, hne⟩
            · exact Or.inl h'
            · exact Or.inr ⟨List.mem_cons_of_mem _ hmem, hne⟩
        · intro hm
          rcases hm with h | ⟨hmem, hne⟩
          · exact List.mem_cons_of_mem _ ((ih hnd.2).mpr (Or.inl h))
          · rcases List.mem_cons.mp hmem with h | h
            · exact h ▸ List.mem_cons_self _ _
            · exact List.mem_cons_of_mem _ ((ih hnd.2).mpr (Or.inr ⟨h, hne⟩))

theorem dictHasKey_eq_false_iff (d : List (κ × α)) (k : κ) :
    dictHasKey d k = false ↔ ∀ p ∈ d, p.1 ≠ k := by
  induction d with
  | nil => simp [dictHasKey]
  | cons p ps ih =>
      by_cases h : p.1 = k
      · simp [dictHasKey, h]
      · simp [dictHasKey, h, ih]

theorem mem_dictDel {d : List (κ × α)} {k : κ} {p : κ × α}
    (h : p ∈ dictDel d k) : p ∈ d := by
  induction d with
  | nil => simp [dictDel] at h
  | cons q ps ih =>
      by_cases hq : q.1 = k
      · simp only [dictDel, hq, if_true] at h
        exact List.mem_cons_of_mem _ h
      · simp only [dictDel, hq, if_false] at h
        rcases List.mem_cons.mp h with h | h
        · exact h ▸ List.mem_cons_self _ _
        · exact List.mem_cons_of_mem _ (ih h)

theorem mem_dictDel_ne_of_nodup {d : List (κ × α)} (hnd : (keysOf d).Nodup)
    {k : κ} {p : κ × α} (h : p ∈ dictDel d k) : p.1 ≠ k := by
  induction d with
  | nil => simp [dictDel] at h
  | cons q ps ih =>
      rw [keysOf_cons, List.nodup_cons] at hnd
      by_cases hq : q.1 = k
      · subst hq
        simp only [dictDel, if_true] at h
        intro hh
        exact hnd.1 (hh ▸ mem_keysOf_of_mem h)
      · simp only [dictDel, hq, if_false] at h
        rcases List.mem_cons.mp h with h | h
        · exact h ▸ hq
        · exact ih hnd.2 h

end DictLemmas

/- ---------------------------------------------------------------------
Lemmas about the Python `min(..., key=lambda p: p.price)` model.
--------------------------------------------------------------------- -/

theorem minFold_mem (a : LatestPriceRecord) (l : List LatestPriceRecord) :
    minFold a l = a ∨ minFold a l ∈ l := by
  induction l generalizing a with
  | nil => exact Or.inl rfl
  | cons x xs ih =>
      have step : minFold a (x :: xs) = minFold (if x.price < a.price then x else a) xs := rfl
      rw [step]
      by_cases hx : x.price < a.price
      · rw [if_pos hx]
        rcases ih x with h | h
        · rw [h]
          exact Or.inr (List.mem_cons_self _ _)
        · exact Or.inr (List.mem_cons_of_mem _ h)
      · rw [if_neg hx]
        rcases ih a with h | h
        · exact Or.inl h
        · exact Or.inr (List.mem_cons_of_mem _ h)

theorem minFold_le_init (a : LatestPriceRecord) (l : List LatestPriceRecord) :
    (minFold a l).price ≤ a.price := by
  induction l generalizing a with
  | nil => exact le_refl _
  | cons x xs ih =>
      have step : minFold a (x :: xs) = minFold (if x.price < a.price then x else a) xs := rfl
      rw [step]
      refine le_trans (ih _) ?_
      by_cases hx : x.price < a.price
      · rw [if_pos hx]; exact le_of_lt hx
      · rw [if_neg hx]

theorem minFold_le_mem (a : LatestPriceRecord) (l : List LatestPriceRecord)
    {x : LatestPriceRecord} (hx : x ∈ l) : (minFold a l).price ≤ x.price := by
  induction l generalizing a with
  | nil => simp at hx
  | cons y ys ih =>
      have step : minFold a (y :: ys) = minFold (if y.price < a.price then y else a) ys := rfl
      rw [step]
      rcases List.mem_cons.mp hx with h | h
      · subst h
        refine le_trans (minFold_le_init _ _) ?_
        by_cases hy : x.price < a.price
        · rw [if_pos hy]
        · rw [if_neg hy]
          exact le_of_not_lt hy
      · exact ih _ h

theorem pyMin?_spec {l : List LatestPriceRecord} {m : LatestPriceRecord}
    (h : pyMin? l = some m) : m ∈ l ∧ ∀ x ∈ l, m.price ≤ x.price := by
  cases l with
  | nil => simp [pyMin?] at h
  | cons y ys =>
      have hm : m = minFold y ys := by
        simp [pyMin?] at h
        exact h.symm
      subst hm
      constructor
      · rcases minFold_mem y ys with h' | h'
        · rw [h']
          exact List.mem_cons_self _ _
        · exact List.mem_cons_of_mem _ h'
      · intro x hx
        rcases List.mem_cons.mp hx with h' | h'
        · rw [h']
          exact minFold_le_init _ _
        · exact minFold_le_mem _ _ h'

theorem pyMin?_of_ne_nil {l : List LatestPriceRecord} (h : l ≠ []) :
    ∃ m, pyMin? l = some m := by
  cases l with
  | nil => exact absurd rfl h
  | cons y ys => exact ⟨minFold y ys, rfl⟩

/- ---------------------------------------------------------------------
Lemmas about `scanLatest`.
--------------------------------------------------------------------- -/

theorem mem_scanLatest {t : List ((String × String) × LatestPriceRecord)}
    {sku : String} {v : LatestPriceRecord} :
    v ∈ scanLatest t sku ↔ ∃ p, p ∈ t ∧ p.1.1 = sku ∧ p.2 = v := by
  constructor
  · intro h
    obtain ⟨p, hp, hv⟩ := List.mem_map.mp h
    have := List.mem_filter.mp hp
    exact ⟨p, this.1, by simpa using this.2, hv⟩
  · intro ⟨p, hp, hk, hv⟩
    exact List.mem_map.mpr ⟨p, List.mem_filter.mpr ⟨hp, by simpa using hk⟩, hv⟩

theorem scanLatest_ne_nil_of_mem {t : List ((String × String) × LatestPriceRecord)}
    {sku : String} {p : (String × String) × LatestPriceRecord}
    (hp : p ∈ t) (hk : p.1.1 = sku) : scanLatest t sku ≠ [] := by
  intro h
  have : p.2 ∈ scanLatest t sku := mem_scanLatest.mpr ⟨p, hp, hk, rfl⟩
  rw [h] at this
  simp at this

/- ---------------------------------------------------------------------
Projection and conversion simp lemmas.
--------------------------------------------------------------------- -/

@[simp]
theorem latestOfAPI_sku (r : APIRecord) : (latestOfAPI r).sku = r.sku := rfl

@[simp]
theorem latestOfAPI_retailer (r : APIRecord) : (latestOfAPI r).retailer = r.retailer := rfl

@[simp]
theorem latestOfAPI_price (r : APIRecord) : (latestOfAPI r).price = r.price := rfl

@[simp]
theorem lowestOfAPI_sku (r : APIRecord) : (lowestOfAPI r).sku = r.sku := rfl

@[simp]
theorem lowestOfAPI_retailer (r : APIRecord) : (lowestOfAPI r).retailer = r.retailer := rfl

@[simp]
theorem lowestOfAPI_price (r : APIRecord) : (lowestOfAPI r).price = r.price := rfl

@[simp]
theorem lowestOfLatest_sku (m : LatestPriceRecord) : (lowestOfLatest m).sku = m.sku := rfl

@[simp]
theorem lowestOfLatest_retailer (m : LatestPriceRecord) :
    (lowestOfLatest m).retailer = m.retailer := rfl

@[simp]
theorem lowestOfLatest_price (m : LatestPriceRecord) :
    (lowestOfLatest m).price = m.price := rfl

@[simp]
theorem historyStep_latest (now : DateTime) (s : Store) (r : APIRecord) :
    (historyStep now s r).latest_price_table = s.latest_price_table := rfl

@[simp]
theorem historyStep_lowest (now : DateTime) (s : Store) (r : APIRecord) :
    (historyStep now s r).lowest_price_table = s.lowest_price_table := rfl

@[simp]
theorem writeLatest_latest (s : Store) (e : LatestPriceRecord) :
    (writeLatest s e).latest_price_table = dictSet s.latest_price_table (e.sku, e.retailer) e := rfl

@[simp]
theorem writeLatest_lowest (s : Store) (e : LatestPriceRecord) :
    (writeLatest s e).lowest_price_table = s.lowest_price_table := rfl

@[simp]
theorem writeLatest_history (s : Store) (e : LatestPriceRecord) :
    (writeLatest s e).history_table = s.history_table := rfl

@[simp]
theorem writeLowest_latest (s : Store) (e : LowestPriceRecord) :
    (writeLowest s e).latest_price_table = s.latest_price_table := rfl

@[simp]
theorem writeLowest_lowest (s : Store) (e : LowestPriceRecord) :
    (writeLowest s e).lowest_price_table = dictSet s.lowest_price_table e.sku e := rfl

@[simp]
theorem writeLowest_history (s : Store) (e : LowestPriceRecord) :
    (writeLowest s e).history_table = s.history_table := rfl

theorem self_mem_dictSet {κ α : Type} [DecidableEq κ] (d : List (κ × α)) (k : κ) (v : α) :
    (k, v) ∈ dictSet d k v := by
  induction d with
  | nil => simp [dictSet]
  | cons p ps ih =>
      by_cases h : p.1 = k
      · simp [dictSet, h]
      · simp only [dictSet, h, if_false]
        exact List.mem_cons_of_mem _ ih

/- ---------------------------------------------------------------------
Preservation of `TInv` through the reconcile step.
--------------------------------------------------------------------- -/

theorem latest_wf_dictSet {L : List ((String × String) × LatestPriceRecord)}
    (hnd : (keysOf L).Nodup)
    (hwf : ∀ p ∈ L, p.2.sku = p.1.1 ∧ p.2.retailer = p.1.2) (r : APIRecord) :
    ∀ p ∈ dictSet L (r.sku, r.retailer) (latestOfAPI r),
      p.2.sku = p.1.1 ∧ p.2.retailer = p.1.2 := by
  intro p hp
  rcases (mem_dictSet_nodup hnd).mp hp with h | ⟨hmem, _⟩
  · subst h
    exact ⟨rfl, rfl⟩
  · exact hwf p hmem

theorem scanLatest_dictSet_cases {L : List ((String × String) × LatestPriceRecord)}
    (hnd : (keysOf L).Nodup) (r : APIRecord) (sk : String) (v : LatestPriceRecord)
    (hv : v ∈ scanLatest (dictSet L (r.sku, r.retailer) (latestOfAPI r)) sk) :
    (sk = r.sku ∧ v = latestOfAPI r) ∨ v ∈ scanLatest L sk := by
  obtain ⟨p, hp, hk, hv2⟩ := mem_scanLatest.mp hv
  rcases (mem_dictSet_nodup hnd).mp hp with h | ⟨hmem, _⟩
  · subst h
    left
    exact ⟨hk.symm, hv2.symm⟩
  · right
    exact mem_scanLatest.mpr ⟨p, hmem, hk, hv2⟩

theorem tinv_write_self (L : List ((String × String) × LatestPriceRecord))
    (W : List (String × LowestPriceRecord)) (r : APIRecord) (hInv : TInv L W)
    (hold : ∀ v ∈ scanLatest L r.sku, r.price ≤ v.price) :
    TInv (dictSet L (r.sku, r.retailer) (latestOfAPI r))
      (dictSet W r.sku (lowestOfAPI r)) := by
  have hndL := hInv.latest_nodup
  have hndL' := keysOf_dictSet_nodup hndL (r.sku, r.retailer) (latestOfAPI r)
  refine ⟨latest_wf_dictSet hndL hInv.latest_wf r, hndL', ?_, ?_, ?_⟩
  · intro sk v hnone hv
    by_cases hsk : sk = r.sku
    · subst hsk
      rw [dictGet?_set_self] at hnone
      exact Option.noConfusion hnone
    · rw [dictGet?_set_ne _ _ _ _ hsk] at hnone
      rcases scanLatest_dictSet_cases hndL r sk v hv with ⟨h1, _⟩ | h2
      · exact hsk h1
      · exact hInv.absent_scan sk v hnone h2
  · intro sk e v hsome hv
    by_cases hsk : sk = r.sku
    · subst hsk
      rw [dictGet?_set_self] at hsome
      injection hsome with he
      subst he
      rcases scanLatest_dictSet_cases hndL r r.sku v hv with ⟨_, h2⟩ | h2
      · subst h2
        exact le_refl r.price
      · exact hold v h2
    · rw [dictGet?_set_ne _ _ _ _ hsk] at hsome
      rcases scanLatest_dictSet_cases hndL r sk v hv with ⟨h1, _⟩ | h2
      · exact absurd h1 hsk
      · exact hInv.low_le sk e v hsome h2
  · intro sk e hsome
    by_cases hsk : sk = r.sku
    · subst hsk
      rw [dictGet?_set_self] at hsome
      injection hsome with he
      subst he
      exact ⟨latestOfAPI r, dictGet?_set_self L (r.sku, r.retailer) (latestOfAPI r), rfl⟩
    · rw [dictGet?_set_ne _ _ _ _ hsk] at hsome
      obtain ⟨v, hv, hvp⟩ := hInv.low_wit sk e hsome
      refine ⟨v, ?_, hvp⟩
      rw [dictGet?_set_ne]
      · exact hv
      · intro hh
        exact hsk (congrArg Prod.fst hh)

theorem tinv_noop (L : List ((String × String) × LatestPriceRecord))
    (W : List (String × LowestPriceRecord)) (r : APIRecord) (hInv : TInv L W)
    (cur : LowestPriceRecord) (hcur : dictGet? W r.sku = some cur)
    (hlt : cur.price < r.price) (hne : ¬ cur.retailer = r.retailer) :
    TInv (dictSet L (r.sku, r.retailer) (latestOfAPI r)) W := by
  have hndL := hInv.latest_nodup
  have hndL' := keysOf_dictSet_nodup hndL (r.sku, r.retailer) (latestOfAPI r)
  refine ⟨latest_wf_dictSet hndL hInv.latest_wf r, hndL', ?_, ?_, ?_⟩
  · intro sk v hnone hv
    by_cases hsk : sk = r.sku
    · subst hsk
      rw [hcur] at hnone
      exact Option.noConfusion hnone
    · rcases scanLatest_dictSet_cases hndL r sk v hv with ⟨h1, _⟩ | h2
      · exact hsk h1
      · exact hInv.absent_scan sk v hnone h2
  · intro sk e v hsome hv
    by_cases hsk : sk = r.sku
    · subst hsk
      rw [hcur] at hsome
      injection hsome with he
      subst he
      rcases scanLatest_dictSet_cases hndL r r.sku v hv with ⟨_, h2⟩ | h2
      · subst h2
        exact le_of_lt hlt
      · exact hInv.low_le r.sku cur v hcur h2
    · rcases scanLatest_dictSet_cases hndL r sk v hv with ⟨h1, _⟩ | h2
      · exact absurd h1 hsk
      · exact hInv.low_le sk e v hsome h2
  · intro sk e hsome
    by_cases hsk : sk = r.sku
    · subst hsk
      rw [hcur] at hsome
      injection hsome with he
      subst he
      obtain ⟨v, hv, hvp⟩ := hInv.low_wit r.sku cur hcur
      refine ⟨v, ?_, hvp⟩
      rw [dictGet?_set_ne]
      · exact hv
      · intro hh
        exact hne (congrArg Prod.snd hh)
    · obtain ⟨v, hv, hvp⟩ := hInv.low_wit sk e hsome
      refine ⟨v, ?_, hvp⟩
      rw [dictGet?_set_ne]
      · exact hv
      · intro hh
        exact hsk (congrArg Prod.fst hh)

theorem tinv_rescan (L : List ((String × String) × LatestPriceRecord))
    (W : List (String × LowestPriceRecord)) (r : APIRecord) (hInv : TInv L W)
    (m : LatestPriceRecord)
    (hm : pyMin? (scanLatest (dictSet L (r.sku, r.retailer) (latestOfAPI r)) r.sku) = some m) :
    m.sku = r.sku ∧
      TInv (dictSet L (r.sku, r.retailer) (latestOfAPI r))
        (dictSet W m.sku (lowestOfLatest m)) := by
  have hndL := hInv.latest_nodup
  have hndL' := keysOf_dictSet_nodup hndL (r.sku, r.retailer) (latestOfAPI r)
  have hwf' := latest_wf_dictSet hndL hInv.latest_wf r
  obtain ⟨hmem, hle⟩ := pyMin?_spec hm
  obtain ⟨p, hp, hk, hv⟩ := mem_scanLatest.mp hmem
  have hwfp := hwf' p hp
  have hmsku : m.sku = r.sku := by
    rw [← hv, hwfp.1, hk]
  have hpkey : p.1 = (r.sku, m.retailer) := by
    have h2 : m.retailer = p.1.2 := by rw [← hv]; exact hwfp.2
    cases hk' : p.1 with
    | mk a b =>
        rw [hk'] at hk h2
        simp only at hk h2
        rw [hk, h2]
  have hget : dictGet? (dictSet L (r.sku, r.retailer) (latestOfAPI r)) (r.sku, m.retailer) = some m := by
    have hh := dictGet?_of_mem_nodup hndL' hp
    rw [hpkey, hv] at hh
    exact hh
  refine ⟨hmsku, ?_⟩
  rw [hmsku]
  refine ⟨hwf', hndL', ?_, ?_, ?_⟩
  · intro sk v hnone hv'
    by_cases hsk : sk = r.sku
    · subst hsk
      rw [dictGet?_set_self] at hnone
      exact Option.noConfusion hnone
    · rw [dictGet?_set_ne _ _ _ _ hsk] at hnone
      rcases scanLatest_dictSet_cases hndL r sk v hv' with ⟨h1, _⟩ | h2
      · exact hsk h1
      · exact hInv.absent_scan sk v hnone h2
  · intro sk e v hsome hv'
    by_cases hsk : sk = r.sku
    · subst hsk
      rw [dictGet?_set_self] at hsome
      injection hsome with he
      subst he
      exact hle v hv'
    · rw [dictGet?_set_ne _ _ _ _ hsk] at hsome
      rcases scanLatest_dictSet_cases hndL r sk v hv' with ⟨h1, _⟩ | h2
      · exact absurd h1 hsk
      · exact hInv.low_le sk e v hsome h2
  · intro sk e hsome
    by_cases hsk : sk = r.sku
    · subst hsk
      rw [dictGet?_set_self] at hsome
      injection hsome with he
      subst he
      exact ⟨m, hget, rfl⟩
    · rw [dictGet?_set_ne _ _ _ _ hsk] at hsome
      obtain ⟨v, hv', hvp⟩ := hInv.low_wit sk e hsome
      refine ⟨v, ?_, hvp⟩
      rw [dictGet?_set_ne]
      · exact hv'
      · intro hh
        exact hsk (congrArg Prod.fst hh)

/- ---------------------------------------------------------------------
The reconcile step after the latest-table upsert never raises and
preserves the invariant.
--------------------------------------------------------------------- -/

theorem storeInv_empty : StoreInv Store.empty := by
  refine ⟨?_, ?_, ?_, ?_, ?_⟩
  · intro p hp
    simp [Store.empty] at hp
  · simp [Store.empty]
  · intro sk v _ hv
    simp [Store.empty, scanLatest] at hv
  · intro sk e v hsome
    simp [Store.empty] at hsome
  · intro sk e hsome
    simp [Store.empty] at hsome

theorem lowestStep_after_upsert (s : Store) (r : APIRecord)
    (hw : isWindowed r = false) (hInv : StoreInv s) :
    ∃ s' b, lowestStep (writeLatest s (latestOfAPI r)) r = Except.ok (s', b) ∧
      StoreInv s' ∧
      s'.latest_price_table =
        dictSet s.latest_price_table (r.sku, r.retailer) (latestOfAPI r) ∧
      s'.history_table = s.history_table ∧
      s'.next_history_table_id = s.next_history_table_id := by
  have hInvT : TInv s.latest_price_table s.lowest_price_table := hInv
  unfold lowestStep
  rw [hw]
  simp only [Bool.false_eq_true, if_false, writeLatest_lowest]
  cases hcur : dictGet? s.lowest_price_table r.sku with
  | none =>
      refine ⟨writeLowest (writeLatest s (latestOfAPI r)) (lowestOfAPI r),
        LowBranch.create, rfl, ?_, rfl, rfl, rfl⟩
      have hold : ∀ v ∈ scanLatest s.latest_price_table r.sku, r.price ≤ v.price := by
        intro v hv
        exact absurd hv (hInvT.absent_scan r.sku v hcur)
      exact tinv_write_self _ _ r hInvT hold
  | some cur =>
      dsimp only
      by_cases hle : r.price ≤ cur.price
      · rw [if_pos hle]
        refine ⟨writeLowest (writeLatest s (latestOfAPI r)) (lowestOfAPI r),
          LowBranch.takeLow, rfl, ?_, rfl, rfl, rfl⟩
        have hold : ∀ v ∈ scanLatest s.latest_price_table r.sku, r.price ≤ v.price := by
          intro v hv
          exact le_trans hle (hInvT.low_le r.sku cur v hcur hv)
        exact tinv_write_self _ _ r hInvT hold
      · rw [if_neg hle]
        by_cases hc : r.price > cur.price ∧ cur.retailer = r.retailer
        · rw [if_pos hc]
          have hne : scanLatest (writeLatest s (latestOfAPI r)).latest_price_table r.sku ≠ [] := by
            refine scanLatest_ne_nil_of_mem (p := ((r.sku, r.retailer), latestOfAPI r)) ?_ rfl
            exact self_mem_dictSet _ _ _
          obtain ⟨m, hm⟩ := pyMin?_of_ne_nil hne
          have hq : queryLowestPricePoint (writeLatest s (latestOfAPI r)) r.sku = some m := hm
          rw [hq]
          obtain ⟨hmsku, hinv'⟩ := tinv_rescan _ _ r hInvT m hm
          refine ⟨writeLowest (writeLatest s (latestOfAPI r)) (lowestOfLatest m),
            LowBranch.rescan, rfl, ?_, rfl, rfl, rfl⟩
          show TInv _ (dictSet s.lowest_price_table (lowestOfLatest m).sku (lowestOfLatest m))
          rw [lowestOfLatest_sku, hmsku]
          rw [hmsku] at hinv'
          exact hinv'
        · rw [if_neg hc]
          refine ⟨writeLatest s (latestOfAPI r), LowBranch.noop, rfl, ?_, rfl, rfl, rfl⟩
          have hlt : cur.price < r.price := lt_of_not_le hle
          have hne : ¬ cur.retailer = r.retailer := fun hh => hc ⟨hlt, hh⟩
          exact tinv_noop _ _ r hInvT cur hcur hlt hne

theorem update_price_plain_ok (now : DateTime) (s : Store)
    (r : APIRecord) (hw : isWindowed r = false) (hInv : StoreInv s) :
    ∃ out, update_price now s r = Except.ok out ∧ StoreInv out.store ∧
      out.store.latest_price_table =
        dictSet s.latest_price_table (r.sku, r.retailer) (latestOfAPI r) := by
  obtain ⟨s', b, hstep, hinv', hlat, _, _⟩ :=
    lowestStep_after_upsert (historyStep now s r) r hw (by exact hInv)
  refine ⟨⟨s', b⟩, ?_, hinv', by rw [hlat]; rfl⟩
  unfold update_price
  rw [hw]
  simp only [Bool.false_eq_true, if_false]
  have hls : latestStep (historyStep now s r) r = writeLatest (historyStep now s r) (latestOfAPI r) := by
    unfold latestStep
    rw [hw]
    simp
  rw [hls, hstep]

theorem update_price_ok_inv (now : DateTime) (s : Store) (r : APIRecord)
    (out : UpdateOut) (h : update_price now s r = Except.ok out)
    (hInv : StoreInv s) : StoreInv out.store := by
  cases hw : isWindowed r with
  | false =>
      obtain ⟨out', hout', hinv', _⟩ := update_price_plain_ok now s r hw hInv
      rw [h] at hout'
      injection hout' with hh
      rw [hh]
      exact hinv'
  | true =>
      unfold update_price at h
      rw [hw] at h
      simp only [if_true] at h
      exact Except.noConfusion h

theorem run_ok_inv (rs : List APIRecord) :
    ∀ s, StoreInv s → (∀ r ∈ rs, isWindowed r = false) →
      ∃ s' bs, run rs s = Except.ok (s', bs) ∧ StoreInv s' := by
  induction rs with
  | nil =>
      intro s hInv _
      exact ⟨s, [], rfl, hInv⟩
  | cons r rest ih =>
      intro s hInv hw
      obtain ⟨out, hout, hinv', _⟩ :=
        update_price_plain_ok 0 s r (hw r (List.mem_cons_self _ _)) hInv
      obtain ⟨s', bs, hrun, hinv''⟩ :=
        ih out.store hinv' (fun q hq => hw q (List.mem_cons_of_mem _ hq))
      refine ⟨s', out.branch :: bs, ?_, hinv''⟩
      unfold run
      rw [hout]
      dsimp only
      rw [hrun]

/-- From the invariant, read off the §3/§8 specification of the lowest
entry for any sku that has at least one latest-price row. -/
theorem storeInv_query (s : Store) (hInv : StoreInv s) (sku : String)
    (hne : scanLatest s.latest_price_table sku ≠ []) :
    ∃ e, dictGet? s.lowest_price_table sku = some e ∧
      (∀ v ∈ scanLatest s.latest_price_table sku, e.price ≤ v.price) ∧
      (∃ v ∈ scanLatest s.latest_price_table sku,
        v.retailer = e.retailer ∧ v.price = e.price) ∧
      lowest_price s sku = some (apiOfLowest e) := by
  have hInvT : TInv s.latest_price_table s.lowest_price_table := hInv
  cases hcur : dictGet? s.lowest_price_table sku with
  | none =>
      exfalso
      apply hne
      rw [List.eq_nil_iff_forall_not_mem]
      intro v
      exact hInvT.absent_scan sku v hcur
  | some e =>
      refine ⟨e, rfl, fun v hv => hInvT.low_le sku e v hcur hv, ?_, ?_⟩
      · obtain ⟨v, hv, hvp⟩ := hInvT.low_wit sku e hcur
        obtain ⟨p, hp, hk, hv2⟩ := dictGet?_eq_some_mem _ _ _ hv
        have hwfp := hInvT.latest_wf p hp
        refine ⟨v, mem_scanLatest.mpr ⟨p, hp, ?_, hv2⟩, ?_, hvp⟩
        · rw [hk]
        · rw [← hv2, hwfp.2, hk]
      · unfold lowest_price
        rw [hcur]

/- ---------------------------------------------------------------------
Further helper lemmas: error characterisation, history ids, cache keys.
--------------------------------------------------------------------- -/

theorem mem_dictSet_weak {κ α : Type} [DecidableEq κ] {d : List (κ × α)}
    {k : κ} {v : α} {p : κ × α} (hp : p ∈ dictSet d k v) :
    p = (k, v) ∨ p ∈ d := by
  induction d with
  | nil => simpa [dictSet] using hp
  | cons q ps ih =>
      by_cases h : q.1 = k
      · simp only [dictSet, h, if_true] at hp
        rcases List.mem_cons.mp hp with h' | h'
        · exact Or.inl h'
        · exact Or.inr (List.mem_cons_of_mem _ h')
      · simp only [dictSet, h, if_false] at hp
        rcases List.mem_cons.mp hp with h' | h'
        · exact Or.inr (h' ▸ List.mem_cons_self _ _)
        · rcases ih h' with h'' | h''
          · exact Or.inl h''
          · exact Or.inr (List.mem_cons_of_mem _ h'')

theorem dictSet_append_of_fresh {κ α : Type} [DecidableEq κ]
    (d : List (κ × α)) (k : κ) (v : α) (h : ∀ p ∈ d, p.1 ≠ k) :
    dictSet d k v = d ++ [(k, v)] := by
  induction d with
  | nil => simp [dictSet]
  | cons q ps ih =>
      have hq : ¬ q.1 = k := h q (List.mem_cons_self _ _)
      simp only [dictSet, hq, if_false, List.cons_append, List.cons.injEq, true_and]
      exact ih (fun p hp => h p (List.mem_cons_of_mem _ hp))

theorem lowestStep_windowed (s : Store) (r : APIRecord) (hw : isWindowed r = true) :
    lowestStep s r = Except.ok (s, LowBranch.skipWindowed) := by
  unfold lowestStep
  rw [hw]
  simp

theorem latestStep_windowed (s : Store) (r : APIRecord) (hw : isWindowed r = true) :
    latestStep s r = s := by
  unfold latestStep
  rw [hw]
  simp

theorem latestStep_plain (s : Store) (r : APIRecord) (hw : isWindowed r = false) :
    latestStep s r = writeLatest s (latestOfAPI r) := by
  unfold latestStep
  rw [hw]
  simp

theorem scan_after_upsert_ne_nil (s : Store) (r : APIRecord) :
    scanLatest (writeLatest s (latestOfAPI r)).latest_price_table r.sku ≠ [] := by
  refine scanLatest_ne_nil_of_mem (p := ((r.sku, r.retailer), latestOfAPI r)) ?_ rfl
  exact self_mem_dictSet _ _ _

theorem lowestStep_plain_ok (s : Store) (r : APIRecord) (hw : isWindowed r = false) :
    ∃ out, lowestStep (writeLatest s (latestOfAPI r)) r = Except.ok out := by
  unfold lowestStep
  rw [hw]
  simp only [Bool.false_eq_true, if_false, writeLatest_lowest]
  cases hcur : dictGet? s.lowest_price_table r.sku with
  | none => exact ⟨_, rfl⟩
  | some cur =>
      dsimp only
      by_cases hle : r.price ≤ cur.price
      · rw [if_pos hle]
        exact ⟨_, rfl⟩
      · rw [if_neg hle]
        by_cases hc : r.price > cur.price ∧ cur.retailer = r.retailer
        · rw [if_pos hc]
          obtain ⟨m, hm⟩ := pyMin?_of_ne_nil (scan_after_upsert_ne_nil s r)
          have hq : queryLowestPricePoint (writeLatest s (latestOfAPI r)) r.sku = some m := hm
          rw [hq]
          exact ⟨_, rfl⟩
        · rw [if_neg hc]
          exact ⟨_, rfl⟩

theorem update_price_error_char (now : DateTime) (s : Store)
    (r : APIRecord) (s' : Store) (h : update_price now s r = Except.error s') :
    isWindowed r = true ∧ s' = historyStep now s r := by
  unfold update_price at h
  cases hw : isWindowed r with
  | true =>
      rw [hw] at h
      simp only [if_true] at h
      injection h with hh
      exact ⟨rfl, hh.symm⟩
  | false =>
      exfalso
      rw [hw] at h
      simp only [Bool.false_eq_true, if_false] at h
      rw [latestStep_plain _ _ hw] at h
      obtain ⟨out, hout⟩ := lowestStep_plain_ok (historyStep now s r) r hw
      rw [hout] at h
      exact Except.noConfusion h

theorem update_price_windowed_fails (now : DateTime) (s : Store) (r : APIRecord)
    (hw : isWindowed r = true) :
    update_price now s r = Except.error (historyStep now s r) := by
  unfold update_price
  rw [hw]
  simp

theorem historyStep_bump (now : DateTime) (s : Store) (r : APIRecord) :
    (historyStep now s r).next_history_table_id = s.next_history_table_id + 1 := rfl

theorem historyStep_fresh_entry (now : DateTime) (s : Store) (r : APIRecord)
    (hids : ∀ p ∈ s.history_table, p.1 < s.next_history_table_id) :
    dictGet? (historyStep now s r).history_table s.next_history_table_id =
      some (mkHistoryRecord now s r) ∧
    ∀ p ∈ (historyStep now s r).history_table,
      p.1 < (historyStep now s r).next_history_table_id := by
  constructor
  · exact dictGet?_set_self _ _ _
  · intro p hp
    have hfresh : ∀ q ∈ s.history_table, q.1 ≠ s.next_history_table_id :=
      fun q hq => Nat.ne_of_lt (hids q hq)
    rw [show (historyStep now s r).history_table =
        dictSet s.history_table s.next_history_table_id (mkHistoryRecord now s r) from rfl,
      dictSet_append_of_fresh _ _ _ hfresh] at hp
    rw [historyStep_bump]
    rcases List.mem_append.mp hp with h | h
    · exact Nat.lt_succ_of_lt (hids p h)
    · have : p = (s.next_history_table_id, mkHistoryRecord now s r) := by simpa using h
      rw [this]
      exact Nat.lt_succ_self _

theorem cache_invalidate_no_key (c : Cache) (sku : String)
    (hnd : (keysOf c).Nodup) : ∀ p ∈ cache_invalidate c sku, p.1 ≠ sku := by
  unfold cache_invalidate
  by_cases h : dictHasKey c sku = true
  · rw [if_pos h]
    exact fun p hp => mem_dictDel_ne_of_nodup hnd hp
  · rw [if_neg h]
    exact (dictHasKey_eq_false_iff c sku).mp (Bool.of_not_eq_true h)

theorem cache_invalidate_of_no_key (c : Cache) (sku : String)
    (h : ∀ p ∈ c, p.1 ≠ sku) : cache_invalidate c sku = c := by
  have hh : dictHasKey c sku = false := (dictHasKey_eq_false_iff c sku).mpr h
  unfold cache_invalidate
  rw [hh]
  simp

theorem applyCacheOp_no_key (c : Cache) (sku : String) (o : CacheOp)
    (ho : isUpdFor sku o = false) (h : ∀ p ∈ c, p.1 ≠ sku) :
    ∀ p ∈ applyCacheOp c o, p.1 ≠ sku := by
  cases o with
  | inval sk =>
      intro p hp
      unfold applyCacheOp cache_invalidate at hp
      dsimp only at hp
      by_cases hk : dictHasKey c sk = true
      · rw [if_pos hk] at hp
        exact h p (mem_dictDel hp)
      · rw [if_neg hk] at hp
        exact h p hp
  | upd sk rec =>
      intro p hp
      have hsk : sk ≠ sku := by
        intro hh
        subst hh
        simp [isUpdFor] at ho
      unfold applyCacheOp cache_update at hp
      rcases mem_dictSet_weak hp with h' | h'
      · rw [h']
        exact hsk
      · exact h p h'

theorem foldl_cacheOps_no_key (sku : String) (ops : List CacheOp)
    (hops : ∀ o ∈ ops, isUpdFor sku o = false) :
    ∀ c : Cache, (∀ p ∈ c, p.1 ≠ sku) →
      ∀ p ∈ ops.foldl applyCacheOp c, p.1 ≠ sku := by
  induction ops with
  | nil => exact fun c h => h
  | cons o os ih =>
      intro c h
      rw [List.foldl_cons]
      exact ih (fun q hq => hops q (List.mem_cons_of_mem _ hq))
        (applyCacheOp c o)
        (applyCacheOp_no_key c sku o (hops o (List.mem_cons_self _ _)) h)

/- ---------------------------------------------------------------------
Symbolic characterisation of `update_price` in the create and
take-the-low branches (used for the tie-break theorem).
--------------------------------------------------------------------- -/

theorem update_price_create (now : DateTime) (s : Store) (r : APIRecord)
    (hw : isWindowed r = false)
    (hcur : dictGet? s.lowest_price_table r.sku = none) :
    update_price now s r = Except.ok
      ⟨writeLowest (writeLatest (historyStep now s r) (latestOfAPI r)) (lowestOfAPI r),
        LowBranch.create⟩ := by
  unfold update_price
  rw [hw]
  simp only [Bool.false_eq_true, if_false]
  rw [latestStep_plain _ _ hw]
  unfold lowestStep
  rw [hw]
  simp only [Bool.false_eq_true, if_false, writeLatest_lowest, historyStep_lowest]
  rw [hcur]

theorem update_price_takeLow (now : DateTime) (s : Store) (r : APIRecord)
    (cur : LowestPriceRecord) (hw : isWindowed r = false)
    (hcur : dictGet? s.lowest_price_table r.sku = some cur)
    (hle : r.price ≤ cur.price) :
    update_price now s r = Except.ok
      ⟨writeLowest (writeLatest (historyStep now s r) (latestOfAPI r)) (lowestOfAPI r),
        LowBranch.takeLow⟩ := by
  unfold update_price
  rw [hw]
  simp only [Bool.false_eq_true, if_false]
  rw [latestStep_plain _ _ hw]
  unfold lowestStep
  rw [hw]
  simp only [Bool.false_eq_true, if_false, writeLatest_lowest, historyStep_lowest]
  rw [hcur]
  dsimp only
  rw [if_pos hle]

theorem lowest_price_writeLowest (s : Store) (e : LowestPriceRecord) :
    lowest_price (writeLowest s e) e.sku = some (apiOfLowest e) := by
  unfold lowest_price
  rw [writeLowest_lowest, dictGet?_set_self]

/- ---------------------------------------------------------------------
Claim theorems.
--------------------------------------------------------------------- -/

/-- Claim C1: after any settled sequence of non-windowed `record_observation`
calls, every product with at least one latest-price row has a lowest-price
entry whose price equals the minimum over that product's latest-price rows
and whose seller achieves that minimum, and `lowest_price` returns exactly
that entry. -/
theorem claim1_lowest_invariant (recs : List APIRecord)
    (hw : ∀ r ∈ recs, isWindowed r = false) :
    ∃ s bs, run recs Store.empty = Except.ok (s, bs) ∧
      ∀ sku, scanLatest s.latest_price_table sku ≠ [] →
        ∃ e, dictGet? s.lowest_price_table sku = some e ∧
          (∀ v ∈ scanLatest s.latest_price_table sku, e.price ≤ v.price) ∧
          (∃ v ∈ scanLatest s.latest_price_table sku,
            v.retailer = e.retailer ∧ v.price = e.price) ∧
          lowest_price s sku = some (apiOfLowest e) := by
  obtain ⟨s, bs, hrun, hinv⟩ := run_ok_inv recs Store.empty storeInv_empty hw
  exact ⟨s, bs, hrun, fun sku hne => storeInv_query s hinv sku hne⟩

/-- Witness for C1 at the concrete run A=10, B=12 for product p. -/
theorem claim1_lowest_invariant_witness :
    ∃ s bs, run [mkObs "p" "a" 10, mkObs "p" "b" 12] Store.empty = Except.ok (s, bs) ∧
      ∀ sku, scanLatest s.latest_price_table sku ≠ [] →
        ∃ e, dictGet? s.lowest_price_table sku = some e ∧
          (∀ v ∈ scanLatest s.latest_price_table sku, e.price ≤ v.price) ∧
          (∃ v ∈ scanLatest s.latest_price_table sku,
            v.retailer = e.retailer ∧ v.price = e.price) ∧
          lowest_price s sku = some (apiOfLowest e) :=
  claim1_lowest_invariant [mkObs "p" "a" 10, mkObs "p" "b" 12] (by decide)

/-- Claim C2 counterexample: after (p,a,10), (p,b,12), (p,a,15), (p,b,20)
the fourth write takes branch 4 (rescan, because b now holds the lowest) and
the lowest entry becomes a at 15, not b at 12 as the claim states. -/
theorem claim2_counterexample :
    lowest_price (runState scenRescan4) "p" = some ⟨"p", "a", 15, none, none, none⟩ ∧
    lowest_price (runState scenRescan4) "p" ≠ some ⟨"p", "b", 12, none, none, none⟩ ∧
    runBranches scenRescan4 =
      [LowBranch.create, LowBranch.noop, LowBranch.rescan, LowBranch.rescan] ∧
    (runBranches scenRescan4).get? 3 ≠ some LowBranch.noop := by
  decide

/-- Claim C2 (amended): A=10, B=12, A=15 rescans on the third write and
yields lowest b at 12; the subsequent B=20 comes from the seller now holding
the lowest, so branch 4 (another rescan) runs and lowest becomes a at 15. -/
theorem claim2_amended_rescan :
    runBranches scenRescan = [LowBranch.create, LowBranch.noop, LowBranch.rescan] ∧
    lowest_price (runState scenRescan) "p" = some ⟨"p", "b", 12, none, none, none⟩ ∧
    runBranches scenRescan4 =
      [LowBranch.create, LowBranch.noop, LowBranch.rescan, LowBranch.rescan] ∧
    lowest_price (runState scenRescan4) "p" = some ⟨"p", "a", 15, none, none, none⟩ := by
  decide

/-- Claim C3 counterexample: on (p,a,10), (p,b,8), (p,a,12) the third write
takes branch 5 (no index write) — no rescan happens, contrary to the claim. -/
theorem claim3_counterexample :
    (runBranches scenRaise).get? 2 = some LowBranch.noop ∧
    (runBranches scenRaise).get? 2 ≠ some LowBranch.rescan := by
  decide

/-- Claim C3 (amended): (p,a,10), (p,b,8), (p,a,5) ends with lowest a at 5;
(p,a,10), (p,b,8), (p,a,12) ends with lowest b at 8, but the third write is
branch 5 (a different seller raised above the minimum), not a rescan. -/
theorem claim3_amended_scenarios :
    lowest_price (runState scenDrop) "p" = some ⟨"p", "a", 5, none, none, none⟩ ∧
    runBranches scenDrop = [LowBranch.create, LowBranch.takeLow, LowBranch.takeLow] ∧
    runBranches scenRaise = [LowBranch.create, LowBranch.takeLow, LowBranch.noop] ∧
    lowest_price (runState scenRaise) "p" = some ⟨"p", "b", 8, none, none, none⟩ := by
  decide

/-- Claim C4 counterexample: the legacy `app.py` handler uses the strict
comparison `price < current.price`, so recording a at 10 then b at 10 keeps
the lowest entry at seller a — the tie-break is not consistent across the
program's implementations. -/
theorem claim4_counterexample :
    ∃ s1 s2, appReceive 0 Store.empty "p" "a" 10 none = Except.ok s1 ∧
      appReceive 1 s1 "p" "b" 10 none = Except.ok s2 ∧
      lowest_price s2 "p" = some ⟨"p", "a", 10, none, none, none⟩ ∧
      lowest_price s2 "p" ≠ some ⟨"p", "b", 10, none, none, none⟩ := by
  refine ⟨_, _, rfl, rfl, ?_, ?_⟩ <;> decide

/-- Claim C4 (amended): under `StorageStrategy.__update_lowest_table`
(non-strict `<=`), for every product and pair of sellers, recording the
first seller at 10 and then the second at 10 leaves the most recent writer
as the recorded lowest. -/
theorem claim4_amended_tie (sku rA rB : String) :
    ∃ s bs, run [mkObs sku rA 10, mkObs sku rB 10] Store.empty = Except.ok (s, bs) ∧
      lowest_price s sku = some ⟨sku, rB, 10, none, none, none⟩ := by
  have h1 := update_price_create 0 Store.empty (mkObs sku rA 10) rfl rfl
  have hcur2 : dictGet?
      (writeLowest (writeLatest (historyStep 0 Store.empty (mkObs sku rA 10))
        (latestOfAPI (mkObs sku rA 10)))
        (lowestOfAPI (mkObs sku rA 10))).lowest_price_table sku =
      some (lowestOfAPI (mkObs sku rA 10)) :=
    dictGet?_set_self _ _ _
  have h2 := update_price_takeLow 0
    (writeLowest (writeLatest (historyStep 0 Store.empty (mkObs sku rA 10))
      (latestOfAPI (mkObs sku rA 10)))
      (lowestOfAPI (mkObs sku rA 10)))
    (mkObs sku rB 10) (lowestOfAPI (mkObs sku rA 10)) rfl hcur2 (le_refl _)
  refine ⟨writeLowest (writeLatest (historyStep 0
      (writeLowest (writeLatest (historyStep 0 Store.empty (mkObs sku rA 10))
        (latestOfAPI (mkObs sku rA 10))) (lowestOfAPI (mkObs sku rA 10)))
      (mkObs sku rB 10)) (latestOfAPI (mkObs sku rB 10)))
      (lowestOfAPI (mkObs sku rB 10)),
    [LowBranch.create, LowBranch.takeLow], ?_, ?_⟩
  · simp only [run]
    rw [h1]
    dsimp only
    rw [h2]
  · exact lowest_price_writeLowest _ (lowestOfAPI (mkObs sku rB 10))

/-- Claim C5 counterexample: recording a windowed observation never
completes successfully — `json.dumps(history_record)` raises `TypeError`
right after the history append, so `update_price` raises with the appended
state rather than returning. -/
theorem claim5_counterexample :
    update_price 0 Store.empty wObs = Except.error (historyStep 0 Store.empty wObs) ∧
    (∀ out, update_price 0 Store.empty wObs ≠ Except.ok out) :=
  ⟨rfl, fun _ h => Except.noConfusion (rfl.symm.trans h)⟩

/-- Claim C5 (amended): the history append assigns the fresh id
`next_history_table_id` — strictly greater than every existing id — and
bumps the counter, for windowed and non-windowed observations alike, and a
non-windowed `record_observation` never fails; but a windowed observation's
write path deterministically raises (`json.dumps` `TypeError` on the
history record, before any network call) immediately after the append, so a
windowed recording never completes successfully. -/
theorem claim5_amended_ids (now : DateTime) (s : Store)
    (r : APIRecord)
    (hids : ∀ p ∈ s.history_table, p.1 < s.next_history_table_id) :
    (historyStep now s r).next_history_table_id = s.next_history_table_id + 1 ∧
    dictGet? (historyStep now s r).history_table s.next_history_table_id =
      some (mkHistoryRecord now s r) ∧
    (∀ p ∈ (historyStep now s r).history_table,
      p.1 < (historyStep now s r).next_history_table_id) ∧
    (isWindowed r = true →
      update_price now s r = Except.error (historyStep now s r)) ∧
    (isWindowed r = false → ∃ out, update_price now s r = Except.ok out) := by
  obtain ⟨h1, h2⟩ := historyStep_fresh_entry now s r hids
  refine ⟨rfl, h1, h2, fun hw => update_price_windowed_fails now s r hw, fun hw => ?_⟩
  unfold update_price
  rw [hw]
  simp only [Bool.false_eq_true, if_false]
  rw [latestStep_plain _ _ hw]
  obtain ⟨out, hout⟩ := lowestStep_plain_ok (historyStep now s r) r hw
  rw [hout]
  exact ⟨_, rfl⟩

/-- Witness for the amended C5 at a concrete windowed observation on the
empty store. -/
theorem claim5_amended_ids_witness :
    (historyStep 0 Store.empty wObs).next_history_table_id = 0 + 1 ∧
    dictGet? (historyStep 0 Store.empty wObs).history_table 0 =
      some (mkHistoryRecord 0 Store.empty wObs) ∧
    (∀ p ∈ (historyStep 0 Store.empty wObs).history_table,
      p.1 < (historyStep 0 Store.empty wObs).next_history_table_id) ∧
    (isWindowed wObs = true →
      update_price 0 Store.empty wObs = Except.error (historyStep 0 Store.empty wObs)) ∧
    (isWindowed wObs = false → ∃ out, update_price 0 Store.empty wObs = Except.ok out) :=
  claim5_amended_ids 0 Store.empty wObs (by decide)

/-- Claim C6: `latest_for_retailer` raises `KeyError` for an unrecorded
(sku, retailer) pair instead of returning absent; for a recorded pair it
returns the latest entry.  The dead `if not record` guard in the source can
never fire, so the absent case is an exception, not `None`. -/
theorem claim6_keyerror :
    latest_for_retailer Store.empty "p" "a" = Except.error () ∧
    latest_for_retailer (runState [mkObs "p" "a" 10]) "p" "a" =
      Except.ok (some ⟨"p", "a", 10, none, none, none⟩) ∧
    latest_for_retailer (runState [mkObs "p" "a" 10]) "p" "b" = Except.error () :=
  ⟨rfl, rfl, rfl⟩

/-- Claim C7 counterexample: the windowed path raises after the history
append, and the failed `record_observation` leaves that append visible: the
state after the failure differs from the state before. -/
theorem claim7_counterexample :
    ∃ s', update_price 0 Store.empty wObs = Except.error s' ∧
      s' ≠ Store.empty ∧ s'.history_table ≠ Store.empty.history_table :=
  ⟨historyStep 0 Store.empty wObs, update_price_windowed_fails 0 Store.empty wObs rfl,
    by decide, by decide⟩

/-- Claim C7 (amended): `record_observation` in the in-memory strategy can
fail only on the windowed path's raise (the `json.dumps` `TypeError`), which
runs after the history append; the state it leaves is exactly the
history-appended state, which never equals the state before the call — the
interrupted write is always visible on failure. -/
theorem claim7_amended_nonatomic (now : DateTime) (s : Store)
    (r : APIRecord) (s' : Store)
    (h : update_price now s r = Except.error s') :
    isWindowed r = true ∧ s' = historyStep now s r ∧ s' ≠ s := by
  obtain ⟨hw, hs⟩ := update_price_error_char now s r s' h
  refine ⟨hw, hs, ?_⟩
  rw [hs]
  intro heq
  have hn := congrArg Store.next_history_table_id heq
  rw [historyStep_bump] at hn
  omega

/-- Witness for the amended C7 at the concrete failing windowed write. -/
theorem claim7_amended_nonatomic_witness :
    isWindowed wObs = true ∧
      historyStep 0 Store.empty wObs = historyStep 0 Store.empty wObs ∧
      historyStep 0 Store.empty wObs ≠ Store.empty :=
  claim7_amended_nonatomic 0 Store.empty wObs (historyStep 0 Store.empty wObs) rfl

/-- Claim C8: a successful `receive` write brackets the storage update in
the (no-op) transaction calls and then invalidates the cache exactly once,
after the commit; afterwards `retrieve` for that sku stays absent under any
further cache calls until an `update` for that sku. -/
theorem claim8_cache_coherence (now : DateTime) (sys : Sys)
    (r : APIRecord) (sys' : Sys) (evs : List WEvent)
    (hnd : (keysOf sys.cache).Nodup)
    (h : receive now sys r = Except.ok (sys', evs)) :
    evs = [WEvent.beginTx, WEvent.commitTx, WEvent.invalidateEv r.sku] ∧
    cache_retrieve sys'.cache r.sku = none ∧
    ∀ ops : List CacheOp, (∀ o ∈ ops, isUpdFor r.sku o = false) →
      cache_retrieve (ops.foldl applyCacheOp sys'.cache) r.sku = none := by
  unfold receive at h
  cases hu : update_price now sys.store r with
  | error e =>
      rw [hu] at h
      exact Except.noConfusion h
  | ok out =>
      rw [hu] at h
      dsimp only at h
      injection h with hh
      have hs : sys' = Sys.mk out.store (cache_invalidate sys.cache r.sku) :=
        (congrArg Prod.fst hh).symm
      have he : evs = [WEvent.beginTx, WEvent.commitTx, WEvent.invalidateEv r.sku] :=
        (congrArg Prod.snd hh).symm
      have hnk : ∀ p ∈ sys'.cache, p.1 ≠ r.sku := by
        rw [hs]
        exact cache_invalidate_no_key sys.cache r.sku hnd
      refine ⟨he, (dictGet?_eq_none_iff _ _).mpr hnk, ?_⟩
      intro ops hops
      exact (dictGet?_eq_none_iff _ _).mpr
        (foldl_cacheOps_no_key r.sku ops hops sys'.cache hnk)

/-- Witness for C8: a concrete write on a cache holding a stale entry for
the written sku, followed by unrelated cache traffic. -/
theorem claim8_cache_coherence_witness :
    ∃ sys' evs,
      receive 0 (Sys.mk Store.empty [("p", mkObs "p" "a" 99)])
        (mkObs "p" "a" 10) = Except.ok (sys', evs) ∧
      evs = [WEvent.beginTx, WEvent.commitTx, WEvent.invalidateEv "p"] ∧
      cache_retrieve sys'.cache "p" = none ∧
      cache_retrieve
        (([CacheOp.inval "q", CacheOp.upd "z" (mkObs "z" "b" 1)]).foldl
          applyCacheOp sys'.cache) "p" = none := by
  refine ⟨_, _, rfl, ?_⟩
  have h := claim8_cache_coherence 0
    (Sys.mk Store.empty [("p", mkObs "p" "a" 99)]) (mkObs "p" "a" 10) _ _
    (by decide) rfl
  exact ⟨h.1, h.2.1,
    h.2.2 [CacheOp.inval "q", CacheOp.upd "z" (mkObs "z" "b" 1)] (by decide)⟩

/-- Claim C9: for a non-windowed observation the latest-table upsert runs
before the reconcile, so the reconcile's scan of the product's latest rows
is non-empty, the minimum query cannot fail, and `update_price` succeeds
from any state. -/
theorem claim9_rescan_nonempty (now : DateTime) (s : Store)
    (r : APIRecord) (hw : isWindowed r = false) :
    scanLatest (latestStep (historyStep now s r) r).latest_price_table r.sku ≠ [] ∧
    queryLowestPricePoint (latestStep (historyStep now s r) r) r.sku ≠ none ∧
    ∃ out, update_price now s r = Except.ok out := by
  rw [latestStep_plain _ _ hw]
  have hne := scan_after_upsert_ne_nil (historyStep now s r) r
  obtain ⟨m, hm⟩ := pyMin?_of_ne_nil hne
  refine ⟨hne, ?_, ?_⟩
  · unfold queryLowestPricePoint
    rw [hm]
    simp
  · unfold update_price
    rw [hw]
    simp only [Bool.false_and, Bool.false_eq_true, if_false]
    rw [latestStep_plain _ _ hw]
    obtain ⟨out, hout⟩ := lowestStep_plain_ok (historyStep now s r) r hw
    rw [hout]
    exact ⟨_, rfl⟩

/-- Witness for C9 at a concrete non-windowed observation on the empty
store. -/
theorem claim9_rescan_nonempty_witness :
    scanLatest (latestStep (historyStep 0 Store.empty (mkObs "p" "a" 10))
      (mkObs "p" "a" 10)).latest_price_table "p" ≠ [] ∧
    queryLowestPricePoint (latestStep (historyStep 0 Store.empty (mkObs "p" "a" 10))
      (mkObs "p" "a" 10)) "p" ≠ none ∧
    ∃ out, update_price 0 Store.empty (mkObs "p" "a" 10) = Except.ok out :=
  claim9_rescan_nonempty 0 Store.empty (mkObs "p" "a" 10) rfl

/-- Claim C10: `InMemoryCacheStrategy.invalidate` is total and idempotent:
invalidating a sku with no cached entry leaves the cache unchanged (and
raises nothing — the model is a total function), and invalidating twice
equals invalidating once. -/
theorem claim10_invalidate_props (c : Cache) (sku : String)
    (hnd : (keysOf c).Nodup) :
    (cache_retrieve c sku = none → cache_invalidate c sku = c) ∧
    cache_invalidate (cache_invalidate c sku) sku = cache_invalidate c sku := by
  constructor
  · intro h
    exact cache_invalidate_of_no_key c sku ((dictGet?_eq_none_iff _ _).mp h)
  · exact cache_invalidate_of_no_key _ _ (cache_invalidate_no_key c sku hnd)

/-- Witness for C10 on a concrete one-entry cache and a missing sku. -/
theorem claim10_invalidate_props_witness :
    (cache_retrieve [("x", mkObs "x" "a" 1)] "y" = none →
      cache_invalidate [("x", mkObs "x" "a" 1)] "y" = [("x", mkObs "x" "a" 1)]) ∧
    cache_invalidate (cache_invalidate [("x", mkObs "x" "a" 1)] "y") "y" =
      cache_invalidate [("x", mkObs "x" "a" 1)] "y" :=
  claim10_invalidate_props [("x", mkObs "x" "a" 1)] "y" (by decide)

end PriceService
